import Mathlib

/-!
Shallow embedding of the operation-wise report pipeline of
`src/app/api/reports/download/route.ts` (the `processWise` branch of `GET`):
grouping of jobs by (productId, machineId), the two-pointer ON/OFF pairing
loop with partial-quantity splitting, leftover-ON emission, row aggregation
keyed on the `'|'`-joined field string, the per-event fallback rows and the
placeholder row.

Modelling conventions:
- JS numbers that hold job quantities are modelled as `Int` (the code never
  forces them non-negative; claims that assume non-negativity take it as a
  hypothesis).
- Timestamps (`createdAt`, `updatedAt`) are epoch milliseconds as `Int`,
  interpreted in UTC.  `Date.prototype.setSeconds(0, 0)` is minute
  truncation; `getHours`/`getMinutes` are the corresponding UTC fields.
- `toISOString().split('T')[0]` (the calendar date) is modelled by the UTC
  day index rendered with `toString`; this rendering is injective on days
  and, like the real ISO date, contains no `'|'` character, which is all the
  aggregation key construction depends on.
- JS object iteration (`for ... in`, `Object.values`) yields keys in
  insertion order because every key used by the code contains `'__'` or
  `'|'` and hence is never an array index; the model therefore uses
  insertion-ordered association lists.
-/

/-- Job state enum (`state` column: `'ON'` / `'OFF'`). -/
inductive JobState
  | ON
  | OFF
deriving DecidableEq, Repr

/-- Related product row (`include: { product: true }`); only `name` is read. -/
structure Product where
  name : String
deriving DecidableEq, Repr

/-- Related machine row (`include: { machine: true }`); only `name` is read. -/
structure Machine where
  name : String
deriving DecidableEq, Repr

/-- One `job` record as fetched by `prisma.job.findMany`.  `product` and
`machine` are `Option` because the relations can be missing (the grouper
skips such jobs).  `updatedAt` is `Option` to model the defensive
`offJob.updatedAt || offJob.createdAt` fallback. -/
structure Job where
  productId : Int
  machineId : Int
  state : JobState
  quantity : Int
  createdAt : Int
  updatedAt : Option Int
  product : Option Product
  machine : Option Machine
deriving DecidableEq, Repr

/-- `n.toString().padStart(2, '0')` for the hour/minute fields (always in
`0..59`, so the negative case never occurs in the pipeline). -/
def pad2 (n : Int) : String :=
  if n < 10 then "0" ++ toString n else toString n

/-- `HH:mm` rendering of an epoch-ms timestamp
(`getHours().padStart(2,'0') + ':' + getMinutes().padStart(2,'0')`, UTC). -/
def hhmmStr (t : Int) : String :=
  pad2 (t / 3600000 % 24) ++ ":" ++ pad2 (t / 60000 % 60)

/-- `setSeconds(0, 0)`: truncate an epoch-ms timestamp to the minute. -/
def truncMin (t : Int) : Int :=
  60000 * (t / 60000)

/-- `toISOString().split('T')[0]`: the UTC calendar date, modelled as the UTC
day index rendered in decimal (injective on days, `'|'`-free). -/
def dateStr (t : Int) : String :=
  toString (t / 86400000)

/-- The `/#(\d+)/` part of `getMachineNumber`: first `'#'` that is followed
by at least one digit; returns the maximal digit run after it.  A `'#'` not
followed by a digit is skipped, as the regex engine would. -/
def hashDigits : List Char → Option (List Char)
  | [] => none
  | c :: rest =>
    if c = '#' then
      let ds := rest.takeWhile Char.isDigit
      if ds.isEmpty then hashDigits rest else some ds
    else hashDigits rest

/-- The `/(\d+)$/` fallback of `getMachineNumber`: the maximal digit suffix. -/
def tailDigits (cs : List Char) : List Char :=
  (cs.reverse.takeWhile Char.isDigit).reverse

/-- `getMachineNumber` from the source.  The `machineName = ""` case also
covers the JS calls where `null` is passed (`!machineName`). -/
def getMachineNumber (machineName : String) : String :=
  if machineName = "" then ""
  else
    match hashDigits machineName.data with
    | some ds => String.mk ds
    | none =>
      let t := tailDigits machineName.data
      if t.isEmpty then "" else String.mk t

/-- A `totalTime` worksheet cell: either a number of minutes or the empty
string (`totalTime ? totalTime : ''`). -/
inductive TimeCell
  | mins (n : Int)
  | blank
deriving DecidableEq, Repr

/-- How the cell stringifies inside `Array.prototype.join('|')`. -/
def TimeCell.text : TimeCell → String
  | .mins n => toString n
  | .blank => ""

/-- One row object pushed onto `allRows` / added to the worksheet. -/
structure Row where
  productId : String
  quantity : Int
  machineNumber : String
  date : String
  onTime : String
  offTime : String
  totalTime : TimeCell
deriving DecidableEq, Repr

/-- `onJob.product.name || onJob.productId`: the product label used for
matched and leftover rows (a numeric `productId` cell stringifies in the
aggregation key exactly like `toString`).  The `none` case is unreachable in
the pipeline because the grouper drops jobs without a product. -/
def pairedLabel (j : Job) : String :=
  match j.product with
  | some p => if p.name = "" then toString j.productId else p.name
  | none => toString j.productId

/-- `(job.product && job.product.name) || job.productId || 'Unknown'` from
the fallback path. -/
def fallbackLabel (j : Job) : String :=
  let nm := match j.product with
    | some p => p.name
    | none => ""
  if nm = "" then
    if j.productId = 0 then "Unknown" else toString j.productId
  else nm

/-- `job.machine && job.machine.name`, as fed to `getMachineNumber` (a
missing machine gives a falsy value, which `getMachineNumber` maps to `""`). -/
def machineNameOf (j : Job) : String :=
  match j.machine with
  | some m => m.name
  | none => ""

/-- `offJob.updatedAt || offJob.createdAt`: the close time of an OFF job. -/
def closeTime (j : Job) : Int :=
  match j.updatedAt with
  | some u => u
  | none => j.createdAt

/-- The ledger entry `{...j, remaining: j.quantity}`: an immutable copy of
the event together with its mutable `remaining` counter. -/
structure JobCopy where
  evt : Job
  remaining : Int
deriving DecidableEq, Repr

/-- `j => ({...j, remaining: j.quantity})`. -/
def mkCopy (j : Job) : JobCopy :=
  ⟨j, j.quantity⟩

/-- The row pushed for one ON/OFF pairing (`allRows.push({...})` inside the
while loop).  `Math.round((offTime − onTime) / 60000)` is exact here because
both timestamps are minute-truncated, so it is plain division. -/
def mkPairRow (onJob offJob : JobCopy) (pairQty : Int) : Row :=
  let onT := truncMin onJob.evt.createdAt
  let offT := truncMin (closeTime offJob.evt)
  let total := (offT - onT) / 60000
  { productId := pairedLabel onJob.evt
    quantity := pairQty
    machineNumber := getMachineNumber (machineNameOf onJob.evt)
    date := dateStr onT
    onTime := hhmmStr onT
    offTime := hhmmStr offT
    totalTime := if total = 0 then .blank else .mins total }

/-- The row pushed for one unmatched ON job (blank OFF / total time). -/
def mkLeftoverRow (onJob : JobCopy) : Row :=
  let onT := truncMin onJob.evt.createdAt
  { productId := pairedLabel onJob.evt
    quantity := onJob.remaining
    machineNumber := getMachineNumber (machineNameOf onJob.evt)
    date := dateStr onT
    onTime := hhmmStr onT
    offTime := ""
    totalTime := .blank }

/-- The trailing `for (; onIdx < onJobs.length; onIdx++)` loop: one row per
remaining ON job with `remaining > 0`. -/
def leftoverRows (ons : List JobCopy) : List Row :=
  ons.filterMap (fun c => if 0 < c.remaining then some (mkLeftoverRow c) else none)

/-- Result of the pairing phase: the emitted rows, whether the defensive
`break` fired, and the final states of the two copy arrays (`onJobs`,
`offJobs`) — the originals are never touched, only `remaining` changes. -/
structure LoopOut where
  rows : List Row
  brk : Bool
  onsAfter : List JobCopy
  offsAfter : List JobCopy
deriving DecidableEq, Repr

/-- The `while (onIdx < onJobs.length && offIdx < offJobs.length)` loop,
including the defensive `break` arm, followed by the leftover-ON pass.
Advancing `onIdx` / `offIdx` over the arrays becomes dropping the head of
the corresponding list; the returned `onsAfter`/`offsAfter` reconstruct the
full final arrays. -/
def pairLoop : List JobCopy → List JobCopy → LoopOut
  | [], offs => ⟨[], false, [], offs⟩
  | onC :: ons, [] => ⟨leftoverRows (onC :: ons), false, onC :: ons, []⟩
  | onC :: ons, offC :: offs =>
    let pairQty := min onC.remaining offC.remaining
    let rowsHead := if 0 < pairQty then [mkPairRow onC offC pairQty] else []
    let onN := if 0 < pairQty then { onC with remaining := onC.remaining - pairQty } else onC
    let offN := if 0 < pairQty then { offC with remaining := offC.remaining - pairQty } else offC
    if onN.remaining = 0 ∧ offN.remaining = 0 then
      let r := pairLoop ons offs
      ⟨rowsHead ++ r.rows, r.brk, onN :: r.onsAfter, offN :: r.offsAfter⟩
    else if onN.remaining = 0 then
      let r := pairLoop ons (offN :: offs)
      ⟨rowsHead ++ r.rows, r.brk, onN :: r.onsAfter, r.offsAfter⟩
    else if offN.remaining = 0 then
      let r := pairLoop (onN :: ons) offs
      ⟨rowsHead ++ r.rows, r.brk, r.onsAfter, offN :: r.offsAfter⟩
    else
      ⟨rowsHead ++ leftoverRows (onN :: ons), true, onN :: ons, offN :: offs⟩
termination_by ons offs => ons.length + offs.length
decreasing_by all_goals simp_arith

/-- Stable insertion of a job into a `createdAt`-sorted list (the element
being inserted comes from earlier in the original order than everything in
the list, so on ties it goes first). -/
def insertByTime (j : Job) : List Job → List Job
  | [] => [j]
  | k :: ks => if j.createdAt ≤ k.createdAt then j :: k :: ks else k :: insertByTime j ks

/-- `group.sort((a, b) => a.createdAt − b.createdAt)`: JS `Array.prototype.sort`
is stable, so it is the unique stable ascending sort by `createdAt`. -/
def sortByTime : List Job → List Job
  | [] => []
  | j :: js => insertByTime j (sortByTime js)

/-- `group.filter(j => j.state === 'ON').map(j => ({...j, remaining: j.quantity}))`
applied to the sorted group. -/
def onCopies (group : List Job) : List JobCopy :=
  ((sortByTime group).filter (fun j => j.state == JobState.ON)).map mkCopy

/-- `group.filter(j => j.state === 'OFF').map(j => ({...j, remaining: j.quantity}))`
applied to the sorted group. -/
def offCopies (group : List Job) : List JobCopy :=
  ((sortByTime group).filter (fun j => j.state == JobState.OFF)).map mkCopy

/-- The whole per-group reconciliation body of
`Object.values(jobGroups).forEach((group) => {...})`. -/
def reconcileGroup (group : List Job) : LoopOut :=
  pairLoop (onCopies group) (offCopies group)

/-- The rows one group contributes to `allRows`. -/
def reconcileRows (group : List Job) : List Row :=
  (reconcileGroup group).rows

/-- `[productId, machineNumber, date, onTime, offTime, totalTime].join('|')`. -/
def groupKey (r : Row) : String :=
  r.productId ++ "|" ++ r.machineNumber ++ "|" ++ r.date ++ "|" ++ r.onTime ++ "|"
    ++ r.offTime ++ "|" ++ r.totalTime.text

/-- `groupedRowsObj[groupKey].quantity += row.quantity`. -/
def bumpQty (r : Row) (q : Int) : Row :=
  { r with quantity := r.quantity + q }

/-- One step of filling `groupedRowsObj`: insert `{...row}` under a fresh
key, or add the quantity to the stored row. -/
def aggStep (acc : List (String × Row)) (r : Row) : List (String × Row) :=
  if acc.any (fun e => e.1 == groupKey r) then
    acc.map (fun e => if e.1 == groupKey r then (e.1, bumpQty e.2 r.quantity) else e)
  else acc ++ [(groupKey r, r)]

/-- `groupedRowsObj` built from `allRows`, read back in key-insertion order
(`for (const key in groupedRowsObj)`). -/
def groupedRows (rows : List Row) : List Row :=
  (rows.foldl aggStep []).map (fun e => e.2)

/-- `` `${job.productId}__${job.machineId}` ``. -/
def jobGroupKey (j : Job) : String :=
  toString j.productId ++ "__" ++ toString j.machineId

/-- Append a job to its group in `jobGroups`, creating the group if absent. -/
def addToGroup (acc : List (String × List Job)) (k : String) (j : Job) :
    List (String × List Job) :=
  if acc.any (fun e => e.1 == k) then
    acc.map (fun e => if e.1 == k then (e.1, e.2 ++ [j]) else e)
  else acc ++ [(k, [j])]

/-- The `jobs.forEach` grouping loop: jobs with a missing product or machine
are skipped, the rest are appended to their `(productId, machineId)` group. -/
def jobGroups (jobs : List Job) : List (String × List Job) :=
  jobs.foldl
    (fun acc j =>
      if j.product.isNone || j.machine.isNone then acc
      else addToGroup acc (jobGroupKey j) j)
    []

/-- `allRows` collected over `Object.values(jobGroups)` in insertion order. -/
def allRows (jobs : List Job) : List Row :=
  (jobGroups jobs).foldr (fun g acc => reconcileRows g.2 ++ acc) []

/-- One best-effort fallback row per job (`addedRows === 0 && jobs.length > 0`
branch).  `job.createdAt` is a `Date` object and hence always truthy, so the
`job.createdAt ? ... : ''` guards always take the first arm; `job.updatedAt`
keeps its defensive guard through the `Option`. -/
def fallbackRow (j : Job) : Row :=
  { productId := fallbackLabel j
    quantity := if j.quantity = 0 then 1 else j.quantity
    machineNumber := getMachineNumber (machineNameOf j)
    date := dateStr j.createdAt
    onTime := hhmmStr j.createdAt
    offTime := match j.updatedAt with
      | some u => hhmmStr u
      | none => ""
    totalTime := .blank }

/-- `worksheet.addRow({ productId: 'No data found for the selected criteria.' })`;
the unset cells are modelled as empty/zero. -/
def placeholderRow : Row :=
  { productId := "No data found for the selected criteria."
    quantity := 0
    machineNumber := ""
    date := ""
    onTime := ""
    offTime := ""
    totalTime := .blank }

/-- The rows actually added to the worksheet body: the grouped rows; else
(when none) one fallback row per job; else the placeholder row.  This is the
`addedRows` bookkeeping of the source. -/
def emittedRows (jobs : List Job) : List Row :=
  let grouped := groupedRows (allRows jobs)
  if grouped.length ≠ 0 then grouped
  else if jobs.length ≠ 0 then jobs.map fallbackRow
  else [placeholderRow]

/-- Sum of the `quantity` cells of a row list. -/
def rowsQty (rows : List Row) : Int :=
  (rows.map Row.quantity).sum

/-- Sum of the quantities of the ON events of a group. -/
def onQtySum (group : List Job) : Int :=
  ((group.filter (fun j => j.state == JobState.ON)).map Job.quantity).sum

/-- Sum of the `remaining` counters of a ledger. -/
def remSum (l : List JobCopy) : Int :=
  (l.map JobCopy.remaining).sum

/-- A concrete product used by the witness inputs. -/
def prodW : Option Product :=
  some ⟨"WidgetA"⟩

/-- A concrete machine used by the witness inputs (`getMachineNumber` gives `"7"`). -/
def machW : Option Machine :=
  some ⟨"Lathe #7"⟩

/-- Big-endian decimal digits of a natural number: a structurally recursive
mirror of core's fuelled `Nat.toDigitsCore`, used to reason about the decimal
rendering that `toString` produces inside aggregation keys. -/
def decDigits (n : Nat) : List Char :=
  if n < 10 then [Nat.digitChar n]
  else decDigits (n / 10) ++ [Nat.digitChar (n % 10)]
termination_by n
decreasing_by exact Nat.div_lt_self (by omega) (by omega)

/-- The numeric value of a big-endian decimal digit string. -/
def digitsVal (cs : List Char) : Nat :=
  cs.foldl (fun a c => 10 * a + (c.toNat - 48)) 0

/-- The non-quantity fields of a row, as an exact tuple. -/
def keyFields (r : Row) : String × String × String × String × String × TimeCell :=
  (r.productId, r.machineNumber, r.date, r.onTime, r.offTime, r.totalTime)

/-- The five tail fields of the aggregation key contain no `'|'` separator.
Every row the pipeline builds satisfies this (machine numbers are digit runs,
dates and total times are decimal renderings, clock times are `HH:mm`);
`reconcileRows_pipeFree` below proves it. -/
def pipeFreeRow (r : Row) : Prop :=
  '|' ∉ r.machineNumber.data ∧ '|' ∉ r.date.data ∧ '|' ∉ r.onTime.data ∧
  '|' ∉ r.offTime.data ∧ '|' ∉ r.totalTime.text.data

instance (r : Row) : Decidable (pipeFreeRow r) := by
  unfold pipeFreeRow
  infer_instance

/-- Append a key to a key list if it is not already present. -/
def insKey (ks : List String) (k : String) : List String :=
  if k ∈ ks then ks else ks ++ [k]

/-- The order in which each distinct key first occurs in a key sequence
(the spec's "first-seen order of distinct keys"). -/
def firstSeenKeys (ks : List String) : List String :=
  ks.foldl insKey []

theorem rowsQty_append (xs ys : List Row) :
    rowsQty (xs ++ ys) = rowsQty xs + rowsQty ys := by
  simp [rowsQty]

theorem leftoverRows_qty (ons : List JobCopy) (h : ∀ c ∈ ons, 0 ≤ c.remaining) :
    rowsQty (leftoverRows ons) = remSum ons := by
  induction ons with
  | nil => rfl
  | cons c cs ih =>
    have hc : 0 ≤ c.remaining := h c (List.mem_cons_self c cs)
    have ih2 := ih (fun x hx => h x (List.mem_cons_of_mem c hx))
    by_cases hp : 0 < c.remaining
    · simp [leftoverRows, rowsQty, remSum, mkLeftoverRow, hp] at ih2 ⊢
      omega
    · have hz : c.remaining = 0 := by omega
      simp [leftoverRows, rowsQty, remSum, mkLeftoverRow, hp, hz] at ih2 ⊢
      omega

theorem rowsQty_head (onC offC : JobCopy) (p : Int) :
    rowsQty (if 0 < p then [mkPairRow onC offC p] else []) = if 0 < p then p else 0 := by
  split <;> simp [mkPairRow, rowsQty]

/-- Quantity conservation of the pairing loop: with non-negative `remaining`
counters on both sides, the emitted rows carry exactly the ON-side total. -/
theorem pairLoop_qty (ons offs : List JobCopy) :
    (∀ c ∈ ons, 0 ≤ c.remaining) → (∀ c ∈ offs, 0 ≤ c.remaining) →
    rowsQty (pairLoop ons offs).rows = remSum ons := by
  induction ons, offs using pairLoop.induct with
  | case1 offs =>
    intro _ _
    simp [pairLoop, rowsQty, remSum]
  | case2 onC ons =>
    intro h1 _
    simp only [pairLoop]
    exact leftoverRows_qty _ h1
  | case3 onC ons offC offs p onN offN hcond ih =>
    intro h1 h2
    have h1t : ∀ c ∈ ons, 0 ≤ c.remaining := fun c hc => h1 c (List.mem_cons_of_mem _ hc)
    have h2t : ∀ c ∈ offs, 0 ≤ c.remaining := fun c hc => h2 c (List.mem_cons_of_mem _ hc)
    simp only [p, onN, offN, dite_eq_ite] at hcond ih
    simp only [pairLoop]
    rw [if_pos hcond]
    rw [rowsQty_append, rowsQty_head, ih h1t h2t]
    have hc1 := hcond.1
    by_cases hp : 0 < min onC.remaining offC.remaining <;>
      simp [hp] at hc1 ⊢ <;> simp [remSum] <;> omega
  | case4 onC ons offC offs p onN offN hcond h1 ih =>
    intro hon hoff
    have hb : 0 ≤ offC.remaining := hoff offC (List.mem_cons_self _ _)
    have h1t : ∀ c ∈ ons, 0 ≤ c.remaining := fun c hc => hon c (List.mem_cons_of_mem _ hc)
    have h2t : ∀ c ∈ offs, 0 ≤ c.remaining := fun c hc => hoff c (List.mem_cons_of_mem _ hc)
    simp only [p, onN, offN, dite_eq_ite] at hcond h1 ih
    simp only [pairLoop]
    rw [if_neg hcond, if_pos h1]
    have h2all : ∀ c ∈ (if 0 < min onC.remaining offC.remaining then
        { evt := offC.evt, remaining := offC.remaining - min onC.remaining offC.remaining }
        else offC) :: offs, 0 ≤ c.remaining := by
      intro c hc
      rcases List.mem_cons.mp hc with hc | hc
      · subst hc
        by_cases hp : 0 < min onC.remaining offC.remaining <;> simp [hp] <;> omega
      · exact h2t c hc
    rw [rowsQty_append, rowsQty_head, ih h1t h2all]
    by_cases hp : 0 < min onC.remaining offC.remaining <;>
      simp [hp] at h1 ⊢ <;> simp [remSum] <;> omega
  | case5 onC ons offC offs p onN offN hcond h1 h2 ih =>
    intro hon hoff
    have ha : 0 ≤ onC.remaining := hon onC (List.mem_cons_self _ _)
    have h1t : ∀ c ∈ ons, 0 ≤ c.remaining := fun c hc => hon c (List.mem_cons_of_mem _ hc)
    have h2t : ∀ c ∈ offs, 0 ≤ c.remaining := fun c hc => hoff c (List.mem_cons_of_mem _ hc)
    simp only [p, onN, offN, dite_eq_ite] at hcond h1 h2 ih
    simp only [pairLoop]
    rw [if_neg hcond, if_neg h1, if_pos h2]
    have h1all : ∀ c ∈ (if 0 < min onC.remaining offC.remaining then
        { evt := onC.evt, remaining := onC.remaining - min onC.remaining offC.remaining }
        else onC) :: ons, 0 ≤ c.remaining := by
      intro c hc
      rcases List.mem_cons.mp hc with hc | hc
      · subst hc
        by_cases hp : 0 < min onC.remaining offC.remaining <;> simp [hp] <;> omega
      · exact h1t c hc
    rw [rowsQty_append, rowsQty_head, ih h1all h2t]
    by_cases hp : 0 < min onC.remaining offC.remaining <;>
      simp [hp] at h2 ⊢ <;> simp [remSum] <;> omega
  | case6 onC ons offC offs p onN offN hcond h1 h2 =>
    intro hon hoff
    have ha : 0 ≤ onC.remaining := hon onC (List.mem_cons_self _ _)
    have h1t : ∀ c ∈ ons, 0 ≤ c.remaining := fun c hc => hon c (List.mem_cons_of_mem _ hc)
    simp only [p, onN, offN, dite_eq_ite] at hcond h1 h2
    simp only [pairLoop]
    rw [if_neg hcond, if_neg h1, if_neg h2]
    have h1all : ∀ c ∈ (if 0 < min onC.remaining offC.remaining then
        { evt := onC.evt, remaining := onC.remaining - min onC.remaining offC.remaining }
        else onC) :: ons, 0 ≤ c.remaining := by
      intro c hc
      rcases List.mem_cons.mp hc with hc | hc
      · subst hc
        by_cases hp : 0 < min onC.remaining offC.remaining <;> simp [hp] <;> omega
      · exact h1t c hc
    rw [rowsQty_append, rowsQty_head, leftoverRows_qty _ h1all]
    by_cases hp : 0 < min onC.remaining offC.remaining <;>
      simp [hp] at h1 h2 ⊢ <;> simp [remSum] <;> omega

/-- With non-negative `remaining` counters the defensive `break` arm is never
reached: after subtracting `min`, at least one side's counter is zero. -/
theorem pairLoop_brk (ons offs : List JobCopy) :
    (∀ c ∈ ons, 0 ≤ c.remaining) → (∀ c ∈ offs, 0 ≤ c.remaining) →
    (pairLoop ons offs).brk = false := by
  induction ons, offs using pairLoop.induct with
  | case1 offs =>
    intro _ _
    simp [pairLoop]
  | case2 onC ons =>
    intro _ _
    simp [pairLoop]
  | case3 onC ons offC offs p onN offN hcond ih =>
    intro h1 h2
    have h1t : ∀ c ∈ ons, 0 ≤ c.remaining := fun c hc => h1 c (List.mem_cons_of_mem _ hc)
    have h2t : ∀ c ∈ offs, 0 ≤ c.remaining := fun c hc => h2 c (List.mem_cons_of_mem _ hc)
    simp only [p, onN, offN, dite_eq_ite] at hcond ih
    simp only [pairLoop]
    rw [if_pos hcond]
    exact ih h1t h2t
  | case4 onC ons offC offs p onN offN hcond h1 ih =>
    intro hon hoff
    have hb : 0 ≤ offC.remaining := hoff offC (List.mem_cons_self _ _)
    have h1t : ∀ c ∈ ons, 0 ≤ c.remaining := fun c hc => hon c (List.mem_cons_of_mem _ hc)
    have h2t : ∀ c ∈ offs, 0 ≤ c.remaining := fun c hc => hoff c (List.mem_cons_of_mem _ hc)
    simp only [p, onN, offN, dite_eq_ite] at hcond h1 ih
    simp only [pairLoop]
    rw [if_neg hcond, if_pos h1]
    refine ih h1t ?_
    intro c hc
    rcases List.mem_cons.mp hc with hc | hc
    · subst hc
      by_cases hp : 0 < min onC.remaining offC.remaining <;> simp [hp] <;> omega
    · exact h2t c hc
  | case5 onC ons offC offs p onN offN hcond h1 h2 ih =>
    intro hon hoff
    have ha : 0 ≤ onC.remaining := hon onC (List.mem_cons_self _ _)
    have h1t : ∀ c ∈ ons, 0 ≤ c.remaining := fun c hc => hon c (List.mem_cons_of_mem _ hc)
    have h2t : ∀ c ∈ offs, 0 ≤ c.remaining := fun c hc => hoff c (List.mem_cons_of_mem _ hc)
    simp only [p, onN, offN, dite_eq_ite] at hcond h1 h2 ih
    simp only [pairLoop]
    rw [if_neg hcond, if_neg h1, if_pos h2]
    refine ih ?_ h2t
    intro c hc
    rcases List.mem_cons.mp hc with hc | hc
    · subst hc
      by_cases hp : 0 < min onC.remaining offC.remaining <;> simp [hp] <;> omega
    · exact h1t c hc
  | case6 onC ons offC offs p onN offN hcond h1 h2 =>
    intro hon hoff
    have ha : 0 ≤ onC.remaining := hon onC (List.mem_cons_self _ _)
    have hb : 0 ≤ offC.remaining := hoff offC (List.mem_cons_self _ _)
    simp only [p, onN, offN, dite_eq_ite] at hcond h1 h2
    exfalso
    by_cases hp : 0 < min onC.remaining offC.remaining
    · simp [hp] at h1 h2
      omega
    · simp [hp] at h1 h2
      omega

/-- The loop never rewrites the event part of a ledger entry: only the
`remaining` counters change. -/
theorem pairLoop_evt (ons offs : List JobCopy) :
    (pairLoop ons offs).onsAfter.map JobCopy.evt = ons.map JobCopy.evt ∧
    (pairLoop ons offs).offsAfter.map JobCopy.evt = offs.map JobCopy.evt := by
  induction ons, offs using pairLoop.induct with
  | case1 offs => simp [pairLoop]
  | case2 onC ons => simp [pairLoop]
  | case3 onC ons offC offs p onN offN hcond ih =>
    simp only [p, onN, offN, dite_eq_ite] at hcond
    simp only [pairLoop]
    rw [if_pos hcond]
    simp only [List.map_cons]
    refine ⟨?_, ?_⟩
    · rw [ih.1]
      congr 1
      by_cases hp : 0 < min onC.remaining offC.remaining <;> simp [hp]
    · rw [ih.2]
      congr 1
      by_cases hp : 0 < min onC.remaining offC.remaining <;> simp [hp]
  | case4 onC ons offC offs p onN offN hcond h1 ih =>
    simp only [p, onN, offN, dite_eq_ite] at hcond h1 ih
    simp only [pairLoop]
    rw [if_neg hcond, if_pos h1]
    simp only [List.map_cons]
    refine ⟨?_, ?_⟩
    · rw [ih.1]
      congr 1
      by_cases hp : 0 < min onC.remaining offC.remaining <;> simp [hp]
    · rw [ih.2]
      by_cases hp : 0 < min onC.remaining offC.remaining <;> simp [hp]
  | case5 onC ons offC offs p onN offN hcond h1 h2 ih =>
    simp only [p, onN, offN, dite_eq_ite] at hcond h1 h2 ih
    simp only [pairLoop]
    rw [if_neg hcond, if_neg h1, if_pos h2]
    simp only [List.map_cons]
    refine ⟨?_, ?_⟩
    · rw [ih.1]
      by_cases hp : 0 < min onC.remaining offC.remaining <;> simp [hp]
    · rw [ih.2]
      congr 1
      by_cases hp : 0 < min onC.remaining offC.remaining <;> simp [hp]
  | case6 onC ons offC offs p onN offN hcond h1 h2 =>
    simp only [p, onN, offN, dite_eq_ite] at hcond h1 h2
    simp only [pairLoop]
    rw [if_neg hcond, if_neg h1, if_neg h2]
    simp only [List.map_cons]
    refine ⟨?_, ?_⟩
    · by_cases hp : 0 < min onC.remaining offC.remaining <;> simp [hp]
    · by_cases hp : 0 < min onC.remaining offC.remaining <;> simp [hp]

theorem insertByTime_perm (j : Job) (l : List Job) : (insertByTime j l).Perm (j :: l) := by
  induction l with
  | nil => simp [insertByTime]
  | cons k ks ih =>
    simp only [insertByTime]
    split
    · exact List.Perm.refl _
    · exact ((ih.cons k).trans (List.Perm.swap j k ks))

theorem sortByTime_perm (l : List Job) : (sortByTime l).Perm l := by
  induction l with
  | nil => simp [sortByTime]
  | cons j js ih =>
    exact (insertByTime_perm j (sortByTime js)).trans (ih.cons j)

theorem remSum_onCopies (group : List Job) : remSum (onCopies group) = onQtySum group := by
  have hperm := (sortByTime_perm group).filter (fun j => j.state == JobState.ON)
  have hmap : remSum (onCopies group)
      = (((sortByTime group).filter (fun j => j.state == JobState.ON)).map Job.quantity).sum := by
    have hcomp : JobCopy.remaining ∘ mkCopy = Job.quantity := rfl
    simp [remSum, onCopies, List.map_map, hcomp]
  rw [hmap, onQtySum]
  exact (hperm.map Job.quantity).sum_eq

theorem onCopies_nonneg (group : List Job) (h : ∀ j ∈ group, 0 ≤ j.quantity) :
    ∀ c ∈ onCopies group, 0 ≤ c.remaining := by
  intro c hc
  simp only [onCopies, List.mem_map, List.mem_filter] at hc
  obtain ⟨j, ⟨hj, _⟩, rfl⟩ := hc
  exact h j ((sortByTime_perm group).mem_iff.mp hj)

theorem offCopies_nonneg (group : List Job) (h : ∀ j ∈ group, 0 ≤ j.quantity) :
    ∀ c ∈ offCopies group, 0 ≤ c.remaining := by
  intro c hc
  simp only [offCopies, List.mem_map, List.mem_filter] at hc
  obtain ⟨j, ⟨hj, _⟩, rfl⟩ := hc
  exact h j ((sortByTime_perm group).mem_iff.mp hj)

/-- C1: for every (product, machine) group whose event quantities are all
non-negative, the sum of the quantities of the rows the reconciler emits for
the group (matched-pair rows plus unmatched-ON rows) equals the sum of the
group's ON-event quantities; surplus OFF quantity never contributes. -/
theorem C1_quantity_conservation (group : List Job)
    (h : ∀ j ∈ group, 0 ≤ j.quantity) :
    rowsQty (reconcileRows group) = onQtySum group := by
  rw [reconcileRows, reconcileGroup,
    pairLoop_qty _ _ (onCopies_nonneg group h) (offCopies_nonneg group h)]
  exact remSum_onCopies group

/-- C1 witness: the conservation theorem applied to a concrete group
(ON 10 paired against OFF 4 and OFF 6). -/
theorem C1_quantity_conservation_witness :
    rowsQty (reconcileRows
      [⟨1, 2, .ON, 10, 32400000, none, prodW, machW⟩,
       ⟨1, 2, .OFF, 4, 33300000, some 33300000, prodW, machW⟩,
       ⟨1, 2, .OFF, 6, 35100000, some 35100000, prodW, machW⟩])
    = onQtySum
      [⟨1, 2, .ON, 10, 32400000, none, prodW, machW⟩,
       ⟨1, 2, .OFF, 4, 33300000, some 33300000, prodW, machW⟩,
       ⟨1, 2, .OFF, 6, 35100000, some 35100000, prodW, machW⟩] :=
  C1_quantity_conservation _ (by decide)

/-- C3: for every group whose event quantities are all non-negative, the
defensive `break` branch of the pairing loop is never taken (after the `min`
subtraction at least one counter is zero, so an index always advances). -/
theorem C3_no_defensive_break (group : List Job)
    (h : ∀ j ∈ group, 0 ≤ j.quantity) :
    (reconcileGroup group).brk = false := by
  rw [reconcileGroup]
  exact pairLoop_brk _ _ (onCopies_nonneg group h) (offCopies_nonneg group h)

/-- C3 witness: the no-break theorem applied to a concrete group. -/
theorem C3_no_defensive_break_witness :
    (reconcileGroup
      [⟨1, 2, .ON, 10, 32400000, none, prodW, machW⟩,
       ⟨1, 2, .OFF, 4, 33300000, some 33300000, prodW, machW⟩,
       ⟨1, 2, .OFF, 6, 35100000, some 35100000, prodW, machW⟩]).brk = false :=
  C3_no_defensive_break _ (by decide)

/-- C8: reconciliation never mutates an input event: the event records held
by the final ledgers are exactly the sorted-and-filtered input events (in
particular every `quantity` field is unchanged); the `remaining` counters
live on the separate copies. -/
theorem C8_no_event_mutation (group : List Job) :
    (reconcileGroup group).onsAfter.map JobCopy.evt
      = (sortByTime group).filter (fun j => j.state == JobState.ON) ∧
    (reconcileGroup group).offsAfter.map JobCopy.evt
      = (sortByTime group).filter (fun j => j.state == JobState.OFF) := by
  have hcompOn : ((sortByTime group).filter (fun j => j.state == JobState.ON)).map
      (JobCopy.evt ∘ mkCopy) = (sortByTime group).filter (fun j => j.state == JobState.ON) := by
    have : JobCopy.evt ∘ mkCopy = id := rfl
    simp [this]
  have hcompOff : ((sortByTime group).filter (fun j => j.state == JobState.OFF)).map
      (JobCopy.evt ∘ mkCopy) = (sortByTime group).filter (fun j => j.state == JobState.OFF) := by
    have : JobCopy.evt ∘ mkCopy = id := rfl
    simp [this]
  refine ⟨?_, ?_⟩
  · rw [reconcileGroup, (pairLoop_evt _ _).1, onCopies, List.map_map, hcompOn]
  · rw [reconcileGroup, (pairLoop_evt _ _).2, offCopies, List.map_map, hcompOff]

/-- C4: the partial-quantity split boundary case: one ON of quantity 10 at
09:00 against OFF 4 at 09:15 and OFF 6 at 09:45 yields exactly the two rows
(qty 4, 09:00–09:15, 15 min) and (qty 6, 09:00–09:45, 45 min). -/
theorem C4_partial_split :
    reconcileRows
      [⟨1, 2, .ON, 10, 32400000, none, prodW, machW⟩,
       ⟨1, 2, .OFF, 4, 33300000, some 33300000, prodW, machW⟩,
       ⟨1, 2, .OFF, 6, 35100000, some 35100000, prodW, machW⟩]
    = [⟨"WidgetA", 4, "7", "0", "09:00", "09:15", .mins 15⟩,
       ⟨"WidgetA", 6, "7", "0", "09:00", "09:45", .mins 45⟩] := by
  have hA : onCopies
      [⟨1, 2, .ON, 10, 32400000, none, prodW, machW⟩,
       ⟨1, 2, .OFF, 4, 33300000, some 33300000, prodW, machW⟩,
       ⟨1, 2, .OFF, 6, 35100000, some 35100000, prodW, machW⟩]
      = [⟨⟨1, 2, .ON, 10, 32400000, none, prodW, machW⟩, 10⟩] := by decide
  have hB : offCopies
      [⟨1, 2, .ON, 10, 32400000, none, prodW, machW⟩,
       ⟨1, 2, .OFF, 4, 33300000, some 33300000, prodW, machW⟩,
       ⟨1, 2, .OFF, 6, 35100000, some 35100000, prodW, machW⟩]
      = [⟨⟨1, 2, .OFF, 4, 33300000, some 33300000, prodW, machW⟩, 4⟩,
         ⟨⟨1, 2, .OFF, 6, 35100000, some 35100000, prodW, machW⟩, 6⟩] := by decide
  rw [reconcileRows, reconcileGroup, hA, hB]
  simp [pairLoop]
  decide

theorem leftoverRows_zero (ons : List JobCopy) (h : ∀ c ∈ ons, c.remaining = 0) :
    leftoverRows ons = [] := by
  rw [leftoverRows, List.filterMap_eq_nil_iff]
  intro c hc
  rw [if_neg]
  rw [h c hc]
  omega

theorem pairLoop_zero_ons (ons offs : List JobCopy) :
    (∀ c ∈ ons, c.remaining = 0) → (pairLoop ons offs).rows = [] := by
  induction ons, offs using pairLoop.induct with
  | case1 offs =>
    intro _
    simp [pairLoop]
  | case2 onC ons =>
    intro h
    simp only [pairLoop]
    exact leftoverRows_zero _ h
  | case3 onC ons offC offs p onN offN hcond ih =>
    intro h
    have h0 : onC.remaining = 0 := h onC (List.mem_cons_self _ _)
    have ht : ∀ c ∈ ons, c.remaining = 0 := fun c hc => h c (List.mem_cons_of_mem _ hc)
    have hp : ¬ 0 < min onC.remaining offC.remaining := by
      rw [h0]
      omega
    simp only [p, onN, offN, dite_eq_ite] at hcond ih
    simp only [pairLoop]
    rw [if_pos hcond, if_neg hp]
    simp only [List.nil_append]
    exact ih ht
  | case4 onC ons offC offs p onN offN hcond h1 ih =>
    intro h
    have h0 : onC.remaining = 0 := h onC (List.mem_cons_self _ _)
    have ht : ∀ c ∈ ons, c.remaining = 0 := fun c hc => h c (List.mem_cons_of_mem _ hc)
    have hp : ¬ 0 < min onC.remaining offC.remaining := by
      rw [h0]
      omega
    simp only [p, onN, offN, dite_eq_ite] at hcond h1 ih
    simp only [pairLoop]
    rw [if_neg hcond, if_pos h1, if_neg hp]
    simp only [List.nil_append]
    exact ih ht
  | case5 onC ons offC offs p onN offN hcond h1 h2 ih =>
    intro h
    exfalso
    have h0 : onC.remaining = 0 := h onC (List.mem_cons_self _ _)
    simp only [p, onN, offN, dite_eq_ite] at h1
    apply h1
    have hp : ¬ 0 < min onC.remaining offC.remaining := by
      rw [h0]
      omega
    rw [if_neg hp]
    exact h0
  | case6 onC ons offC offs p onN offN hcond h1 h2 =>
    intro h
    exfalso
    have h0 : onC.remaining = 0 := h onC (List.mem_cons_self _ _)
    simp only [p, onN, offN, dite_eq_ite] at h1
    apply h1
    have hp : ¬ 0 < min onC.remaining offC.remaining := by
      rw [h0]
      omega
    rw [if_neg hp]
    exact h0

theorem pairLoop_extra_offs (ons offs : List JobCopy) :
    ∀ extra : List JobCopy,
    (∀ c ∈ (pairLoop ons offs).onsAfter, c.remaining = 0) →
    (pairLoop ons (offs ++ extra)).rows = (pairLoop ons offs).rows := by
  induction ons, offs using pairLoop.induct with
  | case1 offs =>
    intro extra _
    simp [pairLoop]
  | case2 onC ons =>
    intro extra h
    simp only [pairLoop] at h
    simp only [pairLoop, List.nil_append]
    rw [pairLoop_zero_ons _ _ h, leftoverRows_zero _ h]
  | case3 onC ons offC offs p onN offN hcond ih =>
    intro extra h
    simp only [p, onN, offN, dite_eq_ite] at hcond ih
    simp only [pairLoop] at h
    rw [if_pos hcond] at h
    simp only [List.cons_append, pairLoop]
    rw [if_pos hcond, if_pos hcond]
    have htail : ∀ c ∈ (pairLoop ons offs).onsAfter, c.remaining = 0 := by
      intro c hc
      exact h c (List.mem_cons_of_mem _ hc)
    rw [ih extra htail]
  | case4 onC ons offC offs p onN offN hcond h1 ih =>
    intro extra h
    simp only [p, onN, offN, dite_eq_ite] at hcond h1 ih
    simp only [pairLoop] at h
    rw [if_neg hcond, if_pos h1] at h
    simp only [List.cons_append, pairLoop]
    rw [if_neg hcond, if_pos h1, if_neg hcond, if_pos h1]
    have htail : ∀ c ∈ (pairLoop ons (
        (if 0 < min onC.remaining offC.remaining then
          { evt := offC.evt, remaining := offC.remaining - min onC.remaining offC.remaining }
        else offC) :: offs)).onsAfter, c.remaining = 0 := by
      intro c hc
      exact h c (List.mem_cons_of_mem _ hc)
    have := ih extra htail
    simp only [List.cons_append] at this
    rw [this]
  | case5 onC ons offC offs p onN offN hcond h1 h2 ih =>
    intro extra h
    simp only [p, onN, offN, dite_eq_ite] at hcond h1 h2 ih
    simp only [pairLoop] at h
    rw [if_neg hcond, if_neg h1, if_pos h2] at h
    simp only [List.cons_append, pairLoop]
    rw [if_neg hcond, if_neg h1, if_pos h2, if_neg hcond, if_neg h1, if_pos h2]
    rw [ih extra h]
  | case6 onC ons offC offs p onN offN hcond h1 h2 =>
    intro extra h
    exfalso
    simp only [p, onN, offN, dite_eq_ite] at hcond h1 h2
    simp only [pairLoop] at h
    rw [if_neg hcond, if_neg h1, if_neg h2] at h
    exact h1 (h _ (List.mem_cons_self _ _))

theorem off_only_rows_nil (group : List Job)
    (h : ∀ j ∈ group, j.state = JobState.OFF) :
    reconcileRows group = [] := by
  have hfil : (sortByTime group).filter (fun j => j.state == JobState.ON) = [] := by
    rw [List.filter_eq_nil_iff]
    intro j hj
    have := h j ((sortByTime_perm group).mem_iff.mp hj)
    simp [this]
  rw [reconcileRows, reconcileGroup, onCopies, hfil]
  simp [pairLoop]

/-- C5: surplus unmatched OFF quantity never produces a row: once pairing
has drained every ON counter, appending any further OFF events to the OFF
side leaves the emitted rows unchanged (the surplus is silently absorbed);
a group with no ON events emits no rows at all; and in the boundary case
ON 2 against OFF 5 exactly one row of quantity 2 is emitted while the
leftover OFF quantity 3 stays on the ledger and produces no row. -/
theorem C5_surplus_off_no_row :
    (∀ ons offs extra : List JobCopy,
      (∀ c ∈ (pairLoop ons offs).onsAfter, c.remaining = 0) →
      (pairLoop ons (offs ++ extra)).rows = (pairLoop ons offs).rows) ∧
    (∀ group : List Job, (∀ j ∈ group, j.state = JobState.OFF) →
      reconcileRows group = []) ∧
    reconcileRows
      [⟨1, 2, .ON, 2, 32400000, none, prodW, machW⟩,
       ⟨1, 2, .OFF, 5, 33300000, some 33300000, prodW, machW⟩]
      = [⟨"WidgetA", 2, "7", "0", "09:00", "09:15", .mins 15⟩] ∧
    (reconcileGroup
      [⟨1, 2, .ON, 2, 32400000, none, prodW, machW⟩,
       ⟨1, 2, .OFF, 5, 33300000, some 33300000, prodW, machW⟩]).offsAfter.map
        JobCopy.remaining = [3] := by
  refine ⟨pairLoop_extra_offs, off_only_rows_nil, ?_⟩
  have hA : onCopies
      [⟨1, 2, .ON, 2, 32400000, none, prodW, machW⟩,
       ⟨1, 2, .OFF, 5, 33300000, some 33300000, prodW, machW⟩]
      = [⟨⟨1, 2, .ON, 2, 32400000, none, prodW, machW⟩, 2⟩] := by decide
  have hB : offCopies
      [⟨1, 2, .ON, 2, 32400000, none, prodW, machW⟩,
       ⟨1, 2, .OFF, 5, 33300000, some 33300000, prodW, machW⟩]
      = [⟨⟨1, 2, .OFF, 5, 33300000, some 33300000, prodW, machW⟩, 5⟩] := by decide
  rw [reconcileRows, reconcileGroup, hA, hB]
  refine ⟨?_, ?_⟩ <;> simp [pairLoop] <;> decide

/-- C5 witness: a mixed group where OFF 5 drains ON 2 — appending a further
OFF event of quantity 7 emits no additional row; and the all-OFF part
applied to a concrete one-event group. -/
theorem C5_surplus_off_no_row_witness :
    (pairLoop [⟨⟨1, 2, .ON, 2, 32400000, none, prodW, machW⟩, 2⟩]
        ([⟨⟨1, 2, .OFF, 5, 33300000, some 33300000, prodW, machW⟩, 5⟩]
          ++ [⟨⟨1, 2, .OFF, 7, 35100000, some 35100000, prodW, machW⟩, 7⟩])).rows
      = (pairLoop [⟨⟨1, 2, .ON, 2, 32400000, none, prodW, machW⟩, 2⟩]
          [⟨⟨1, 2, .OFF, 5, 33300000, some 33300000, prodW, machW⟩, 5⟩]).rows ∧
    reconcileRows [⟨1, 2, .OFF, 5, 33300000, some 33300000, prodW, machW⟩] = [] := by
  constructor
  · apply C5_surplus_off_no_row.1
    intro c hc
    simp [pairLoop] at hc
    simp [hc]
  · exact C5_surplus_off_no_row.2.1 _ (by decide)

theorem decDigits_lt (n : Nat) (h : n < 10) : decDigits n = [Nat.digitChar n] := by
  rw [decDigits]
  simp [h]

theorem decDigits_ge (n : Nat) (h : ¬ n < 10) :
    decDigits n = decDigits (n / 10) ++ [Nat.digitChar (n % 10)] := by
  rw [decDigits]
  simp [h]

theorem toDigitsCore_decDigits (fuel : Nat) :
    ∀ n ds, n < fuel → Nat.toDigitsCore 10 fuel n ds = decDigits n ++ ds := by
  induction fuel with
  | zero =>
    intro n ds h
    omega
  | succ fuel ih =>
    intro n ds h
    by_cases h10 : n < 10
    · have hz : n / 10 = 0 := Nat.div_eq_of_lt h10
      have hm : n % 10 = n := Nat.mod_eq_of_lt h10
      simp [Nat.toDigitsCore, hz, decDigits_lt n h10, hm]
    · have hz : ¬ n / 10 = 0 := by omega
      have hlt : n / 10 < fuel := by
        have := Nat.div_lt_self (show 0 < n by omega) (show 1 < 10 by omega)
        omega
      simp only [Nat.toDigitsCore, hz, if_false]
      rw [ih (n / 10) _ hlt, decDigits_ge n h10]
      simp

theorem natRepr_decDigits (n : Nat) : Nat.repr n = (decDigits n).asString := by
  rw [Nat.repr, Nat.toDigits, toDigitsCore_decDigits (n + 1) n [] (by omega)]
  simp

theorem digitChar_toNat (d : Nat) (h : d < 10) : (Nat.digitChar d).toNat = 48 + d := by
  interval_cases d <;> rfl

theorem digitsVal_append (xs : List Char) (c : Char) :
    digitsVal (xs ++ [c]) = 10 * digitsVal xs + (c.toNat - 48) := by
  simp [digitsVal, List.foldl_append]

theorem digitsVal_decDigits (n : Nat) : digitsVal (decDigits n) = n := by
  induction n using Nat.strong_induction_on with
  | _ n ih =>
    by_cases h10 : n < 10
    · simp [decDigits_lt n h10, digitsVal, digitChar_toNat n h10]
    · have hlt : n / 10 < n := Nat.div_lt_self (by omega) (by omega)
      rw [decDigits_ge n h10, digitsVal_append, ih (n / 10) hlt,
        digitChar_toNat (n % 10) (Nat.mod_lt n (by omega))]
      omega

theorem decDigits_injective : Function.Injective decDigits := by
  intro a b h
  have hv := congrArg digitsVal h
  rwa [digitsVal_decDigits, digitsVal_decDigits] at hv

theorem natRepr_injective : Function.Injective Nat.repr := by
  intro a b h
  rw [natRepr_decDigits, natRepr_decDigits] at h
  have hdata := congrArg String.data h
  simp [List.asString] at hdata
  exact decDigits_injective hdata

theorem decDigits_ne_nil (n : Nat) : decDigits n ≠ [] := by
  by_cases h : n < 10
  · simp [decDigits_lt n h]
  · simp [decDigits_ge n h]

theorem digitChar_ne_dash (d : Nat) (h : d < 10) : Nat.digitChar d ≠ '-' := by
  interval_cases d <;> decide

theorem decDigits_no_dash (n : Nat) : ∀ c ∈ decDigits n, c ≠ '-' := by
  induction n using Nat.strong_induction_on with
  | _ n ih =>
    intro c hc
    by_cases h10 : n < 10
    · rw [decDigits_lt n h10] at hc
      simp at hc
      subst hc
      exact digitChar_ne_dash n h10
    · rw [decDigits_ge n h10] at hc
      rcases List.mem_append.mp hc with h | h
      · exact ih (n / 10) (Nat.div_lt_self (by omega) (by omega)) c h
      · simp at h
        subst h
        exact digitChar_ne_dash (n % 10) (Nat.mod_lt n (by omega))

theorem natRepr_data_decDigits (n : Nat) : (Nat.repr n).data = decDigits n := by
  rw [natRepr_decDigits]
  rfl

theorem intToString_injective : Function.Injective (toString : Int → String) := by
  intro a b h
  match a, b with
  | Int.ofNat m, Int.ofNat k =>
    have hh : Nat.repr m = Nat.repr k := h
    rw [natRepr_injective hh]
  | Int.negSucc m, Int.negSucc k =>
    have hdata := congrArg String.data h
    have hm : (toString (Int.negSucc m)).data = '-' :: (Nat.repr (m + 1)).data := rfl
    have hk : (toString (Int.negSucc k)).data = '-' :: (Nat.repr (k + 1)).data := rfl
    rw [hm, hk] at hdata
    have : Nat.repr (m + 1) = Nat.repr (k + 1) := by
      apply String.ext
      exact List.cons_injective hdata
    have hmk := natRepr_injective this
    have : m = k := by omega
    rw [this]
  | Int.ofNat m, Int.negSucc k =>
    exfalso
    have hdata := congrArg String.data h
    have hm : (toString (Int.ofNat m)).data = decDigits m := natRepr_data_decDigits m
    have hk : (toString (Int.negSucc k)).data = '-' :: (Nat.repr (k + 1)).data := rfl
    rw [hm, hk] at hdata
    have hne := decDigits_ne_nil m
    match hd : decDigits m with
    | [] => exact hne hd
    | c :: cs =>
      rw [hd] at hdata
      have : c = '-' := by injection hdata
      exact decDigits_no_dash m c (by rw [hd]; exact List.mem_cons_self _ _) this
  | Int.negSucc m, Int.ofNat k =>
    exfalso
    have hdata := congrArg String.data h
    have hm : (toString (Int.negSucc m)).data = '-' :: (Nat.repr (m + 1)).data := rfl
    have hk : (toString (Int.ofNat k)).data = decDigits k := natRepr_data_decDigits k
    rw [hm, hk] at hdata
    have hne := decDigits_ne_nil k
    match hd : decDigits k with
    | [] => exact hne hd
    | c :: cs =>
      rw [hd] at hdata
      have : c = '-' := by injection hdata.symm
      exact decDigits_no_dash k c (by rw [hd]; exact List.mem_cons_self _ _) this

theorem intToString_ne_empty (n : Int) : toString n ≠ "" := by
  match n with
  | Int.ofNat m =>
    intro hc
    have hdc := congrArg String.data hc
    have hm : (toString (Int.ofNat m)).data = decDigits m := natRepr_data_decDigits m
    rw [hm] at hdc
    exact decDigits_ne_nil m hdc
  | Int.negSucc m =>
    intro hc
    have := congrArg String.data hc
    have hm : (toString (Int.negSucc m)).data = '-' :: (Nat.repr (m + 1)).data := rfl
    rw [hm] at this
    simp at this

theorem pipe_peel (a : List Char) : ∀ (b l m : List Char), '|' ∉ a → '|' ∉ b →
    a ++ '|' :: l = b ++ '|' :: m → a = b ∧ l = m := by
  induction a with
  | nil =>
    intro b l m _ hb h
    match b with
    | [] =>
      simp at h
      exact ⟨rfl, h⟩
    | c :: bs =>
      exfalso
      simp only [List.nil_append, List.cons_append, List.cons.injEq] at h
      apply hb
      rw [h.1]
      exact List.mem_cons_self _ _
  | cons c cs ih =>
    intro b l m ha hb h
    match b with
    | [] =>
      exfalso
      simp only [List.nil_append, List.cons_append, List.cons.injEq] at h
      apply ha
      rw [← h.1]
      exact List.mem_cons_self _ _
    | d :: bs =>
      simp only [List.cons_append, List.cons.injEq] at h
      have := ih bs l m (fun hx => ha (List.mem_cons_of_mem c hx))
        (fun hx => hb (List.mem_cons_of_mem d hx)) h.2
      exact ⟨by rw [h.1, this.1], this.2⟩

theorem rev_pipe (x t : List Char) : (x ++ '|' :: t).reverse = t.reverse ++ '|' :: x.reverse := by
  simp [List.reverse_append]

theorem peel_last (x1 x2 t1 t2 : List Char) (h1 : '|' ∉ t1) (h2 : '|' ∉ t2)
    (h : x1 ++ '|' :: t1 = x2 ++ '|' :: t2) : x1 = x2 ∧ t1 = t2 := by
  have hr := congrArg List.reverse h
  rw [rev_pipe, rev_pipe] at hr
  have hp := pipe_peel t1.reverse t2.reverse x1.reverse x2.reverse
    (by simpa using h1) (by simpa using h2) hr
  exact ⟨List.reverse_inj.mp hp.2, List.reverse_inj.mp hp.1⟩

theorem pipeData : ("|" : String).data = ['|'] := rfl

theorem append_pipe (y z : List Char) : (y ++ ['|']) ++ z = y ++ '|' :: z := by
  rw [List.append_assoc]
  rfl

theorem joinSix_inj (p1 m1 d1 a1 b1 t1 p2 m2 d2 a2 b2 t2 : String)
    (hm1 : '|' ∉ m1.data) (hd1 : '|' ∉ d1.data) (ha1 : '|' ∉ a1.data)
    (hb1 : '|' ∉ b1.data) (ht1 : '|' ∉ t1.data)
    (hm2 : '|' ∉ m2.data) (hd2 : '|' ∉ d2.data) (ha2 : '|' ∉ a2.data)
    (hb2 : '|' ∉ b2.data) (ht2 : '|' ∉ t2.data)
    (h : p1 ++ "|" ++ m1 ++ "|" ++ d1 ++ "|" ++ a1 ++ "|" ++ b1 ++ "|" ++ t1
       = p2 ++ "|" ++ m2 ++ "|" ++ d2 ++ "|" ++ a2 ++ "|" ++ b2 ++ "|" ++ t2) :
    p1 = p2 ∧ m1 = m2 ∧ d1 = d2 ∧ a1 = a2 ∧ b1 = b2 ∧ t1 = t2 := by
  have hdata := congrArg String.data h
  simp only [String.data_append, pipeData, append_pipe] at hdata
  obtain ⟨h5, hT⟩ := peel_last _ _ _ _ ht1 ht2 hdata
  obtain ⟨h4, hB⟩ := peel_last _ _ _ _ hb1 hb2 h5
  obtain ⟨h3, hA⟩ := peel_last _ _ _ _ ha1 ha2 h4
  obtain ⟨h2, hD⟩ := peel_last _ _ _ _ hd1 hd2 h3
  obtain ⟨h1, hM⟩ := peel_last _ _ _ _ hm1 hm2 h2
  exact ⟨String.ext h1, String.ext hM, String.ext hD, String.ext hA, String.ext hB,
    String.ext hT⟩

theorem timeCell_text_inj (c1 c2 : TimeCell) (h : c1.text = c2.text) : c1 = c2 := by
  match c1, c2 with
  | .mins n, .mins m => rw [intToString_injective h]
  | .mins n, .blank => exact absurd h (intToString_ne_empty n)
  | .blank, .mins m => exact absurd h.symm (intToString_ne_empty m)
  | .blank, .blank => rfl

theorem groupKey_eq_iff (r1 r2 : Row) (h1 : pipeFreeRow r1) (h2 : pipeFreeRow r2) :
    groupKey r1 = groupKey r2 ↔ keyFields r1 = keyFields r2 := by
  constructor
  · intro h
    obtain ⟨hp, hm, hd, ha, hb, ht⟩ := joinSix_inj _ _ _ _ _ _ _ _ _ _ _ _
      h1.1 h1.2.1 h1.2.2.1 h1.2.2.2.1 h1.2.2.2.2
      h2.1 h2.2.1 h2.2.2.1 h2.2.2.2.1 h2.2.2.2.2 h
    simp [keyFields, hp, hm, hd, ha, hb, timeCell_text_inj _ _ ht]
  · intro h
    simp only [keyFields, Prod.mk.injEq] at h
    obtain ⟨hp, hm, hd, ha, hb, ht⟩ := h
    simp [groupKey, hp, hm, hd, ha, hb, ht]

theorem digitChar_isDigit (d : Nat) (h : d < 10) : (Nat.digitChar d).isDigit = true := by
  interval_cases d <;> decide

theorem decDigits_isDigit (n : Nat) : ∀ c ∈ decDigits n, c.isDigit = true := by
  induction n using Nat.strong_induction_on with
  | _ n ih =>
    intro c hc
    by_cases h10 : n < 10
    · rw [decDigits_lt n h10] at hc
      simp at hc
      subst hc
      exact digitChar_isDigit n h10
    · rw [decDigits_ge n h10] at hc
      rcases List.mem_append.mp hc with h | h
      · exact ih (n / 10) (Nat.div_lt_self (by omega) (by omega)) c h
      · simp at h
        subst h
        exact digitChar_isDigit (n % 10) (Nat.mod_lt n (by omega))

theorem isDigit_ne_pipe (c : Char) (h : c.isDigit = true) : c ≠ '|' := by
  intro hc
  subst hc
  exact absurd h (by decide)

theorem natRepr_no_pipe (n : Nat) : '|' ∉ (Nat.repr n).data := by
  rw [natRepr_data_decDigits]
  intro hc
  exact isDigit_ne_pipe '|' (decDigits_isDigit n '|' hc) rfl

theorem intToString_no_pipe (i : Int) : '|' ∉ (toString i).data := by
  match i with
  | Int.ofNat m =>
    have hm : (toString (Int.ofNat m)).data = (Nat.repr m).data := rfl
    rw [hm]
    exact natRepr_no_pipe m
  | Int.negSucc m =>
    have hm : (toString (Int.negSucc m)).data = '-' :: (Nat.repr (m + 1)).data := rfl
    rw [hm]
    intro hc
    rcases List.mem_cons.mp hc with hc | hc
    · exact absurd hc (by decide)
    · exact natRepr_no_pipe (m + 1) hc

theorem pad2_no_pipe (n : Int) : '|' ∉ (pad2 n).data := by
  rw [pad2]
  split
  · rw [String.data_append]
    intro hc
    rcases List.mem_append.mp hc with hc | hc
    · exact absurd hc (by decide)
    · exact intToString_no_pipe n hc
  · exact intToString_no_pipe n

theorem hhmmStr_no_pipe (t : Int) : '|' ∉ (hhmmStr t).data := by
  rw [hhmmStr]
  simp only [String.data_append]
  intro hc
  rcases List.mem_append.mp hc with hc | hc
  · rcases List.mem_append.mp hc with hc | hc
    · exact pad2_no_pipe _ hc
    · exact absurd hc (by decide)
  · exact pad2_no_pipe _ hc

theorem dateStr_no_pipe (t : Int) : '|' ∉ (dateStr t).data :=
  intToString_no_pipe _

theorem timeCell_no_pipe (c : TimeCell) : '|' ∉ c.text.data := by
  match c with
  | .mins n => exact intToString_no_pipe n
  | .blank => simp [TimeCell.text]

theorem hashDigits_isDigit (cs : List Char) :
    ∀ ds, hashDigits cs = some ds → ∀ c ∈ ds, c.isDigit = true := by
  induction cs with
  | nil =>
    intro ds h
    simp [hashDigits] at h
  | cons x xs ih =>
    intro ds h c hc
    rw [hashDigits] at h
    by_cases hx : x = '#'
    · rw [if_pos hx] at h
      simp only [] at h
      by_cases he : (xs.takeWhile Char.isDigit).isEmpty = true
      · rw [if_pos he] at h
        exact ih ds h c hc
      · rw [if_neg he] at h
        injection h with h
        subst h
        exact List.mem_takeWhile_imp hc
    · rw [if_neg hx] at h
      exact ih ds h c hc

theorem tailDigits_isDigit (cs : List Char) : ∀ c ∈ tailDigits cs, c.isDigit = true := by
  intro c hc
  rw [tailDigits] at hc
  rw [List.mem_reverse] at hc
  exact List.mem_takeWhile_imp hc

theorem getMachineNumber_no_pipe (s : String) : '|' ∉ (getMachineNumber s).data := by
  rw [getMachineNumber]
  split
  · simp
  · cases hh : hashDigits s.data with
    | some ds =>
      simp only [hh]
      intro hc
      exact isDigit_ne_pipe '|' (hashDigits_isDigit s.data ds hh '|' hc) rfl
    | none =>
      simp only [hh]
      split
      · simp
      · intro hc
        exact isDigit_ne_pipe '|' (tailDigits_isDigit s.data '|' hc) rfl

theorem mkPairRow_pipeFree (onJob offJob : JobCopy) (q : Int) :
    pipeFreeRow (mkPairRow onJob offJob q) := by
  refine ⟨getMachineNumber_no_pipe _, dateStr_no_pipe _, hhmmStr_no_pipe _,
    hhmmStr_no_pipe _, ?_⟩
  rw [mkPairRow]
  simp only []
  split <;> exact timeCell_no_pipe _

theorem mkLeftoverRow_pipeFree (onJob : JobCopy) : pipeFreeRow (mkLeftoverRow onJob) := by
  exact ⟨getMachineNumber_no_pipe _, dateStr_no_pipe _, hhmmStr_no_pipe _,
    by simp [mkLeftoverRow], by simp [mkLeftoverRow, TimeCell.text]⟩

theorem leftoverRows_pipeFree (ons : List JobCopy) :
    ∀ r ∈ leftoverRows ons, pipeFreeRow r := by
  intro r hr
  rw [leftoverRows] at hr
  rw [List.mem_filterMap] at hr
  obtain ⟨c, _, hc⟩ := hr
  split at hc
  · injection hc with hc
    subst hc
    exact mkLeftoverRow_pipeFree c
  · exact absurd hc (by simp)

theorem pairLoop_pipeFree (ons offs : List JobCopy) :
    ∀ r ∈ (pairLoop ons offs).rows, pipeFreeRow r := by
  induction ons, offs using pairLoop.induct with
  | case1 offs => simp [pairLoop]
  | case2 onC ons =>
    simp only [pairLoop]
    exact leftoverRows_pipeFree _
  | case3 onC ons offC offs p onN offN hcond ih =>
    simp only [p, onN, offN, dite_eq_ite] at hcond ih
    simp only [pairLoop]
    rw [if_pos hcond]
    intro r hr
    rcases List.mem_append.mp hr with hr | hr
    · split at hr
      · simp at hr
        subst hr
        exact mkPairRow_pipeFree _ _ _
      · exact absurd hr (by simp)
    · exact ih r hr
  | case4 onC ons offC offs p onN offN hcond h1 ih =>
    simp only [p, onN, offN, dite_eq_ite] at hcond h1 ih
    simp only [pairLoop]
    rw [if_neg hcond, if_pos h1]
    intro r hr
    rcases List.mem_append.mp hr with hr | hr
    · split at hr
      · simp at hr
        subst hr
        exact mkPairRow_pipeFree _ _ _
      · exact absurd hr (by simp)
    · exact ih r hr
  | case5 onC ons offC offs p onN offN hcond h1 h2 ih =>
    simp only [p, onN, offN, dite_eq_ite] at hcond h1 h2 ih
    simp only [pairLoop]
    rw [if_neg hcond, if_neg h1, if_pos h2]
    intro r hr
    rcases List.mem_append.mp hr with hr | hr
    · split at hr
      · simp at hr
        subst hr
        exact mkPairRow_pipeFree _ _ _
      · exact absurd hr (by simp)
    · exact ih r hr
  | case6 onC ons offC offs p onN offN hcond h1 h2 =>
    simp only [p, onN, offN, dite_eq_ite] at hcond h1 h2
    simp only [pairLoop]
    rw [if_neg hcond, if_neg h1, if_neg h2]
    intro r hr
    rcases List.mem_append.mp hr with hr | hr
    · split at hr
      · simp at hr
        subst hr
        exact mkPairRow_pipeFree _ _ _
      · exact absurd hr (by simp)
    · exact leftoverRows_pipeFree _ r hr

theorem reconcileRows_pipeFree (group : List Job) :
    ∀ r ∈ reconcileRows group, pipeFreeRow r := by
  rw [reconcileRows, reconcileGroup]
  exact pairLoop_pipeFree _ _

theorem groupedRows_pair_eq (r1 r2 : Row) (hk : groupKey r1 = groupKey r2) :
    groupedRows [r1, r2] = [bumpQty r1 r2.quantity] := by
  simp [groupedRows, aggStep, hk]

theorem groupedRows_pair_ne (r1 r2 : Row) (hk : groupKey r1 ≠ groupKey r2) :
    groupedRows [r1, r2] = [r1, r2] := by
  simp only [groupedRows, List.foldl_cons, List.foldl_nil, aggStep, List.any_nil,
    Bool.false_eq_true, if_false, List.nil_append, List.any_cons, List.any_nil,
    Bool.or_false, beq_iff_eq]
  rw [if_neg hk]
  rfl

/-- C2: the aggregator merges two rows exactly when they agree on every
field other than quantity, compared as the exact tuple (product label,
machine number, date, onTime, offTime, totalTime): for two such identical
rows the merged output is the single row carrying the summed quantity, and
rows differing in any of those fields are never merged.  The `'|'`-free side
condition on the five tail fields holds for every row the reconciler can
feed the aggregator (first conjunct). -/
theorem C2_exact_merge :
    (∀ group : List Job, ∀ r ∈ reconcileRows group, pipeFreeRow r) ∧
    (∀ r1 r2 : Row, pipeFreeRow r1 → pipeFreeRow r2 →
      ((keyFields r1 = keyFields r2 →
          groupedRows [r1, r2] = [{ r1 with quantity := r1.quantity + r2.quantity }]) ∧
        (keyFields r1 ≠ keyFields r2 → groupedRows [r1, r2] = [r1, r2]))) := by
  refine ⟨reconcileRows_pipeFree, fun r1 r2 h1 h2 => ⟨?_, ?_⟩⟩
  · intro hf
    exact groupedRows_pair_eq r1 r2 ((groupKey_eq_iff r1 r2 h1 h2).mpr hf)
  · intro hf
    exact groupedRows_pair_ne r1 r2 (fun hc => hf ((groupKey_eq_iff r1 r2 h1 h2).mp hc))

/-- C2 witness: two rows equal on all non-quantity fields merge into one row
with the summed quantity; two rows differing in `offTime`/`totalTime` stay
separate. -/
theorem C2_exact_merge_witness :
    groupedRows [⟨"WidgetA", 4, "7", "0", "09:00", "09:15", .mins 15⟩,
                 ⟨"WidgetA", 6, "7", "0", "09:00", "09:15", .mins 15⟩]
      = [⟨"WidgetA", 10, "7", "0", "09:00", "09:15", .mins 15⟩] ∧
    groupedRows [⟨"WidgetA", 4, "7", "0", "09:00", "09:15", .mins 15⟩,
                 ⟨"WidgetA", 6, "7", "0", "09:00", "09:45", .mins 45⟩]
      = [⟨"WidgetA", 4, "7", "0", "09:00", "09:15", .mins 15⟩,
         ⟨"WidgetA", 6, "7", "0", "09:00", "09:45", .mins 45⟩] := by
  constructor
  · have h := (C2_exact_merge.2 ⟨"WidgetA", 4, "7", "0", "09:00", "09:15", .mins 15⟩
      ⟨"WidgetA", 6, "7", "0", "09:00", "09:15", .mins 15⟩ (by decide) (by decide)).1 (by decide)
    rw [h]
    decide
  · exact (C2_exact_merge.2 ⟨"WidgetA", 4, "7", "0", "09:00", "09:15", .mins 15⟩
      ⟨"WidgetA", 6, "7", "0", "09:00", "09:45", .mins 45⟩ (by decide) (by decide)).2 (by decide)

theorem aggStep_fst (acc : List (String × Row)) (r : Row) :
    (aggStep acc r).map Prod.fst = insKey (acc.map Prod.fst) (groupKey r) := by
  by_cases hmem : groupKey r ∈ acc.map Prod.fst
  · have hany : acc.any (fun e => e.1 == groupKey r) = true := by
      simp only [List.mem_map] at hmem
      obtain ⟨e, he, hfst⟩ := hmem
      simp only [List.any_eq_true]
      exact ⟨e, he, by simp [hfst]⟩
    simp only [aggStep, hany, if_true, insKey, hmem, List.map_map]
    have : (Prod.fst ∘ fun e : String × Row =>
        if e.1 == groupKey r then (e.1, bumpQty e.2 r.quantity) else e) = Prod.fst := by
      funext e
      by_cases he : e.1 = groupKey r <;> simp [he]
    rw [this]
  · have hany : acc.any (fun e => e.1 == groupKey r) = false := by
      simp only [List.any_eq_false]
      intro e he
      simp only [beq_iff_eq]
      intro hc
      exact hmem (List.mem_map.mpr ⟨e, he, hc⟩)
    simp [aggStep, hany, insKey, hmem]

theorem foldl_aggStep_fst (rows : List Row) :
    ∀ acc : List (String × Row),
    ((rows.foldl aggStep acc).map Prod.fst)
      = rows.foldl (fun ks r => insKey ks (groupKey r)) (acc.map Prod.fst) := by
  induction rows with
  | nil => intro acc; rfl
  | cons r rs ih =>
    intro acc
    rw [List.foldl_cons, List.foldl_cons, ih (aggStep acc r), aggStep_fst]

theorem foldl_aggStep_snd_key (rows : List Row) :
    ∀ acc : List (String × Row), (∀ e ∈ acc, groupKey e.2 = e.1) →
    ∀ e ∈ rows.foldl aggStep acc, groupKey e.2 = e.1 := by
  induction rows with
  | nil => intro acc h; exact h
  | cons r rs ih =>
    intro acc h
    rw [List.foldl_cons]
    refine ih (aggStep acc r) ?_
    intro e he
    simp only [aggStep] at he
    split at he
    · simp only [List.mem_map] at he
      obtain ⟨e0, he0, rfl⟩ := he
      by_cases hk : e0.1 == groupKey r <;> simp [hk]
      · have : groupKey (bumpQty e0.2 r.quantity) = groupKey e0.2 := rfl
        rw [this]
        exact h e0 he0
      · exact h e0 he0
    · rcases List.mem_append.mp he with he | he
      · exact h e he
      · simp at he
        subst he
        rfl

/-- C7: the aggregated output preserves the first-seen order of distinct
keys: the merged rows appear in the order in which each distinct
non-quantity key first occurred in the input row sequence. -/
theorem C7_first_seen_order (rows : List Row) :
    (groupedRows rows).map groupKey = firstSeenKeys (rows.map groupKey) := by
  have hsnd : ∀ e ∈ rows.foldl aggStep [], groupKey e.2 = e.1 :=
    foldl_aggStep_snd_key rows [] (by intro e he; simp at he)
  have h1 : (groupedRows rows).map groupKey
      = (rows.foldl aggStep []).map Prod.fst := by
    rw [groupedRows, List.map_map]
    exact List.map_congr_left (fun e he => hsnd e he)
  rw [h1, foldl_aggStep_fst rows [], firstSeenKeys, List.foldl_map]
  rfl

/-- C6: if the merged row set is empty but at least one raw input event
exists, the fallback path emits exactly one best-effort row per original
event (equal in count to the raw input); with no events at all, the single
explanatory placeholder row is emitted instead. -/
theorem C6_fallback_rows (jobs : List Job) :
    (groupedRows (allRows jobs) = [] → jobs ≠ [] →
      emittedRows jobs = jobs.map fallbackRow ∧
      (emittedRows jobs).length = jobs.length) ∧
    (jobs = [] → emittedRows jobs = [placeholderRow]) := by
  constructor
  · intro hg hj
    have hlen : (groupedRows (allRows jobs)).length = 0 := by rw [hg]; rfl
    have hjlen : jobs.length ≠ 0 := by
      intro hc
      exact hj (List.length_eq_zero.mp hc)
    rw [emittedRows]
    simp [hlen, hjlen]
  · intro hj
    subst hj
    rfl

/-- C6 witness: a job whose product relation is missing is dropped by the
grouper, so the merged set is empty and one fallback row is emitted. -/
theorem C6_fallback_rows_witness :
    emittedRows [⟨1, 2, .ON, 3, 32400000, none, none, machW⟩]
      = [fallbackRow ⟨1, 2, .ON, 3, 32400000, none, none, machW⟩] ∧
    (emittedRows [⟨1, 2, .ON, 3, 32400000, none, none, machW⟩]).length = 1 :=
  (C6_fallback_rows _).1 (by decide) (by decide)

/-- C9: for a matched pair whose minute-truncated OFF close time
(`updatedAt`, falling back to `createdAt`) is strictly earlier than the ON
event's minute-truncated `createdAt`, the emitted row's totalTime is the
negative minute difference — a negative integer, neither clamped to zero nor
replaced by the empty string; the empty string appears exactly when the
difference is zero. -/
theorem C9_negative_totalTime (onJob offJob : JobCopy) (q : Int)
    (h : truncMin (closeTime offJob.evt) < truncMin onJob.evt.createdAt) :
    (mkPairRow onJob offJob q).totalTime
      = .mins ((truncMin (closeTime offJob.evt) - truncMin onJob.evt.createdAt) / 60000) ∧
    (truncMin (closeTime offJob.evt) - truncMin onJob.evt.createdAt) / 60000 < 0 ∧
    (∀ onJ offJ : JobCopy, ∀ q2 : Int, (mkPairRow onJ offJ q2).totalTime = .blank ↔
      (truncMin (closeTime offJ.evt) - truncMin onJ.evt.createdAt) / 60000 = 0) := by
  have hneg : (truncMin (closeTime offJob.evt) - truncMin onJob.evt.createdAt) / 60000 < 0 := by
    rw [truncMin, truncMin] at h ⊢
    set x := closeTime offJob.evt / 60000 with hx
    set y := onJob.evt.createdAt / 60000 with hy
    have hxy : x < y := by omega
    have hfac : 60000 * x - 60000 * y = 60000 * (x - y) := by ring
    rw [hfac, Int.mul_ediv_cancel_left _ (by omega)]
    omega
  refine ⟨?_, hneg, ?_⟩
  · rw [mkPairRow]
    simp only []
    rw [if_neg (by omega)]
  · intro onJ offJ q2
    rw [mkPairRow]
    simp only []
    split
    · rename_i hz
      simp [hz]
    · rename_i hz
      simp [hz]

/-- C9 witness: ON created 09:15, OFF closed 09:00 — the emitted totalTime
is the negative integer −15, not blank and not zero. -/
theorem C9_negative_totalTime_witness :
    (mkPairRow ⟨⟨1, 2, .ON, 1, 33300000, none, prodW, machW⟩, 1⟩
        ⟨⟨1, 2, .OFF, 1, 32400000, some 32400000, prodW, machW⟩, 1⟩ 1).totalTime
      = .mins (-15) := by
  have h := (C9_negative_totalTime ⟨⟨1, 2, .ON, 1, 33300000, none, prodW, machW⟩, 1⟩
    ⟨⟨1, 2, .OFF, 1, 32400000, some 32400000, prodW, machW⟩, 1⟩ 1 (by decide)).1
  rw [h]
  decide

/-- C10: a fallback row's quantity is the event's quantity when that is
non-zero and 1 otherwise (`job.quantity || 1`), so a zero-quantity event is
reported as quantity 1 and the fallback report can exceed the total input
quantity: a single zero-quantity event with a missing product yields a
report totalling 1 against an input total of 0. -/
theorem C10_fallback_quantity :
    (∀ j : Job, (fallbackRow j).quantity = if j.quantity = 0 then 1 else j.quantity) ∧
    rowsQty (emittedRows [⟨1, 2, .ON, 0, 32400000, none, none, machW⟩]) = 1 ∧
    (List.map Job.quantity [⟨1, 2, .ON, 0, 32400000, none, none, machW⟩]).sum = 0 := by
  refine ⟨fun j => rfl, by decide, by decide⟩
